import Mathlib

/-! Verification of the streaming moving-average indicators of the `ta` crate:
the linearly weighted moving average (LWMA,
`src/indicators/linearly_weighted_moving_average.rs`), the relative moving
average (RMA, `src/indicators/relative_moving_average.rs`) and the runtime
moving-average selector (`src/indicators/moving_average.rs`).  The `f64`
values of the source are modelled as exact rationals, so the algebraic
identities the code relies on can be settled exactly. -/

namespace Ta

/-- The crate's single error kind, `TaError::InvalidParameter`. -/
inductive TaError where
  | invalidParameter
deriving DecidableEq

/-- The `Close` trait: any input type exposing its closing value. -/
class Close (α : Type) where
  close : α → ℚ

/-- Generic driver: feed a list of inputs one at a time through a streaming
`step` function (repeated `Next::next` calls), collecting the state and the
list of outputs. -/
def runStream {σ : Type} (step : σ → ℚ → σ × ℚ) : σ → List ℚ → σ × List ℚ
  | s, [] => (s, [])
  | s, x :: xs =>
    let p := step s x
    let r := runStream step p.1 xs
    (r.1, p.2 :: r.2)

/-- Weighted sum `k*x_1 + (k+1)*x_2 + ...` of a list with weights counting up
from `k`. -/
def wSumFrom (k : ℚ) : List ℚ → ℚ
  | [] => 0
  | x :: xs => k * x + wSumFrom (k + 1) xs

/-- The linear weighted sum `Σ_{i=1..n} i * x_i` (oldest first, weight 1 for
the oldest element). -/
def wSum (xs : List ℚ) : ℚ := wSumFrom 1 xs

/-- The triangular number `n*(n+1)/2`, computed as in the source: the natural
product `count * (count + 1)` cast to the value type, divided by `2`. -/
def tri (n : ℕ) : ℚ := ((n * (n + 1) : ℕ) : ℚ) / 2

/-- The last `min p xs.length` elements of `xs`: the retained window of a
period-`p` indicator after feeding `xs`. -/
def window (p : ℕ) (xs : List ℚ) : List ℚ := xs.drop (xs.length - p)

/-- State of `LinearlyWeightedMovingAverage`: `deque` is the `Box<[f64]>`
circular buffer of length `period`. -/
structure LinearlyWeightedMovingAverage where
  period : ℕ
  index : ℕ
  count : ℕ
  weighted_sum : ℚ
  sum : ℚ
  deque : List ℚ
deriving DecidableEq

namespace LinearlyWeightedMovingAverage

/-- The state built by a successful `LinearlyWeightedMovingAverage::new`. -/
def init (period : ℕ) : LinearlyWeightedMovingAverage where
  period := period
  index := 0
  count := 0
  weighted_sum := 0
  sum := 0
  deque := List.replicate period 0

/-- `LinearlyWeightedMovingAverage::new`: `period = 0` is rejected with
`InvalidParameter`, otherwise the zeroed state is returned. -/
def new (period : ℕ) : Except TaError LinearlyWeightedMovingAverage :=
  match period with
  | 0 => .error .invalidParameter
  | _ => .ok (init period)

/-- `Next::<f64>::next` for the LWMA, step for step as in the source:
read `old_val` at `index`, overwrite the slot, advance `index` modulo
`period`, update `weighted_sum` (filling branch increments `count` and adds
`count * input`; full branch uses `weighted_sum - sum + period * input`),
update the rolling `sum`, and divide by the triangular weight. -/
def next (s : LinearlyWeightedMovingAverage) (input : ℚ) :
    LinearlyWeightedMovingAverage × ℚ :=
  let old_val := s.deque.getD s.index 0
  let s1 := { s with deque := s.deque.set s.index input }
  let s2 := { s1 with index := if s1.index + 1 < s1.period then s1.index + 1 else 0 }
  let s3 :=
    if s2.count < s2.period then
      { s2 with
        count := s2.count + 1
        weighted_sum := s2.weighted_sum + ((s2.count + 1 : ℕ) : ℚ) * input }
    else
      { s2 with
        weighted_sum := s2.weighted_sum - s2.sum + (s2.period : ℚ) * input }
  let s4 := { s3 with sum := s3.sum - old_val + input }
  let weight : ℚ := ((s4.count * (s4.count + 1) : ℕ) : ℚ) / 2
  (s4, s4.weighted_sum / weight)

/-- `Reset` for the LWMA: zero `index`, `count`, `sum`, `weighted_sum` and
every buffer slot `0 .. period`. -/
def reset (s : LinearlyWeightedMovingAverage) : LinearlyWeightedMovingAverage :=
  { s with
    index := 0
    count := 0
    sum := 0
    weighted_sum := 0
    deque := (List.range s.period).foldl (fun d i => d.set i 0) s.deque }

/-- `fmt::Display` for the LWMA: the source writes the literal `"SMA({})"`. -/
def displayString (s : LinearlyWeightedMovingAverage) : String :=
  "SMA(" ++ toString s.period ++ ")"

/-- `Next::<&T>::next` for the LWMA: extract the closing value and delegate
to the scalar `next`. -/
def nextClose {α : Type} [Close α] (s : LinearlyWeightedMovingAverage) (t : α) :
    LinearlyWeightedMovingAverage × ℚ :=
  s.next (Close.close t)

/-- Feed a list of inputs through `next`. -/
def run (s : LinearlyWeightedMovingAverage) (xs : List ℚ) :
    LinearlyWeightedMovingAverage × List ℚ :=
  runStream next s xs

/-- The outputs of feeding a list of inputs through `next`. -/
def outputs (s : LinearlyWeightedMovingAverage) (xs : List ℚ) : List ℚ :=
  (s.run xs).2

/-- The circular buffer read in chronological order: the slot at `index` is
the next to be overwritten, hence the oldest, so the chronological content
starts there. -/
def chron (s : LinearlyWeightedMovingAverage) : List ℚ :=
  s.deque.drop s.index ++ s.deque.take s.index

end LinearlyWeightedMovingAverage

/-- Modelled from the spec: `ExponentialMovingAverage` is an external
collaborator (its implementation is not under `src/`; only its callers are).
Per §4.2/§6 it carries a configurable smoothing constant `k`; per the RMA
scenario of §8 and the doctest in `src/lib.rs`, the first sample becomes the
output directly and each later output is `k * input + (1 - k) * previous`. -/
structure ExponentialMovingAverage where
  period : ℕ
  k : ℚ
  current : ℚ
  is_new : Bool
deriving DecidableEq

namespace ExponentialMovingAverage

/-- Modelled from the spec:
`with_custom_smoothing_constant(period, alpha) -> Result<Ema, InvalidParameter>`
(the source calls it `with_k`); the single error condition is `period = 0`. -/
def with_k (period : ℕ) (k : ℚ) : Except TaError ExponentialMovingAverage :=
  match period with
  | 0 => .error .invalidParameter
  | _ => .ok { period := period, k := k, current := 0, is_new := true }

/-- Modelled from the spec: the collaborator's default smoothing-constant
derivation `k = 2 / (period + 1)`, pinned by the doctest in `src/lib.rs`
(`ExponentialMovingAverage::new(3)` maps `2, 5, 1, 6.25` to
`2, 3.5, 2.25, 4.25`). -/
def new (period : ℕ) : Except TaError ExponentialMovingAverage :=
  with_k period (2 / ((period : ℚ) + 1))

/-- Modelled from the spec: the collaborator's streaming `next`. -/
def next (s : ExponentialMovingAverage) (input : ℚ) :
    ExponentialMovingAverage × ℚ :=
  if s.is_new then
    ({ s with is_new := false, current := input }, input)
  else
    let c := s.k * input + (1 - s.k) * s.current
    ({ s with current := c }, c)

/-- Modelled from the spec: reset returns the state to its construction-time
values. -/
def reset (s : ExponentialMovingAverage) : ExponentialMovingAverage :=
  { s with is_new := true, current := 0 }

/-- Modelled from the spec: the capability-accepting overload extracts the
closing value and delegates to the scalar `next`. -/
def nextClose {α : Type} [Close α] (s : ExponentialMovingAverage) (t : α) :
    ExponentialMovingAverage × ℚ :=
  s.next (Close.close t)

/-- Feed a list of inputs through `next`. -/
def run (s : ExponentialMovingAverage) (xs : List ℚ) :
    ExponentialMovingAverage × List ℚ :=
  runStream next s xs

/-- The outputs of feeding a list of inputs through `next`. -/
def outputs (s : ExponentialMovingAverage) (xs : List ℚ) : List ℚ :=
  (s.run xs).2

end ExponentialMovingAverage

/-- Modelled from the spec: `SimpleMovingAverage` is not under `src/` (only
the selector's `Simple` variant names it).  Per §4.3/§9 it follows the same
fixed-size circular-buffer pattern as the LWMA and outputs the arithmetic
mean of the most recent `min(count, period)` samples. -/
structure SimpleMovingAverage where
  period : ℕ
  index : ℕ
  count : ℕ
  sum : ℚ
  deque : List ℚ
deriving DecidableEq

namespace SimpleMovingAverage

/-- Modelled from the spec: the zeroed construction-time state. -/
def init (period : ℕ) : SimpleMovingAverage where
  period := period
  index := 0
  count := 0
  sum := 0
  deque := List.replicate period 0

/-- Modelled from the spec: `new` rejects `period = 0` with
`InvalidParameter`. -/
def new (period : ℕ) : Except TaError SimpleMovingAverage :=
  match period with
  | 0 => .error .invalidParameter
  | _ => .ok (init period)

/-- Modelled from the spec: circular-buffer arithmetic mean of the most
recent `min(count, period)` samples. -/
def next (s : SimpleMovingAverage) (input : ℚ) : SimpleMovingAverage × ℚ :=
  let old_val := s.deque.getD s.index 0
  let s1 := { s with deque := s.deque.set s.index input }
  let s2 := { s1 with index := if s1.index + 1 < s1.period then s1.index + 1 else 0 }
  let s3 := if s2.count < s2.period then { s2 with count := s2.count + 1 } else s2
  let s4 := { s3 with sum := s3.sum - old_val + input }
  (s4, s4.sum / (s4.count : ℚ))

/-- Modelled from the spec: reset returns the state to its construction-time
values. -/
def reset (s : SimpleMovingAverage) : SimpleMovingAverage :=
  { s with
    index := 0
    count := 0
    sum := 0
    deque := (List.range s.period).foldl (fun d i => d.set i 0) s.deque }

/-- Modelled from the spec: display label `"SMA(<period>)"` (§6). -/
def displayString (s : SimpleMovingAverage) : String :=
  "SMA(" ++ toString s.period ++ ")"

/-- Modelled from the spec: the capability-accepting overload extracts the
closing value and delegates to the scalar `next`. -/
def nextClose {α : Type} [Close α] (s : SimpleMovingAverage) (t : α) :
    SimpleMovingAverage × ℚ :=
  s.next (Close.close t)

/-- Feed a list of inputs through `next`. -/
def run (s : SimpleMovingAverage) (xs : List ℚ) :
    SimpleMovingAverage × List ℚ :=
  runStream next s xs

/-- The outputs of feeding a list of inputs through `next`. -/
def outputs (s : SimpleMovingAverage) (xs : List ℚ) : List ℚ :=
  (s.run xs).2

end SimpleMovingAverage

/-- `RelativeMovingAverage`: a wrapper around an `ExponentialMovingAverage`
configured with `alpha = 1/period`. -/
structure RelativeMovingAverage where
  ema : ExponentialMovingAverage
deriving DecidableEq

namespace RelativeMovingAverage

/-- `RelativeMovingAverage::new`: `period = 0` is rejected; otherwise the
embedded collaborator is built with `with_k(period, 1.0 / period)` (the
source unwraps the result, which cannot fail for a nonzero period). -/
def new (period : ℕ) : Except TaError RelativeMovingAverage :=
  match period with
  | 0 => .error .invalidParameter
  | _ =>
    (ExponentialMovingAverage.with_k period (1 / (period : ℚ))).map
      fun e => { ema := e }

/-- `Period` for the RMA delegates to the embedded collaborator. -/
def period (s : RelativeMovingAverage) : ℕ := s.ema.period

/-- `Next::<f64>::next` for the RMA delegates to the embedded collaborator. -/
def next (s : RelativeMovingAverage) (input : ℚ) : RelativeMovingAverage × ℚ :=
  let p := s.ema.next input
  ({ ema := p.1 }, p.2)

/-- `Next::<&T>::next` for the RMA delegates the capability-bearing input to
the embedded collaborator's overload. -/
def nextClose {α : Type} [Close α] (s : RelativeMovingAverage) (t : α) :
    RelativeMovingAverage × ℚ :=
  let p := s.ema.nextClose t
  ({ ema := p.1 }, p.2)

/-- `Reset` for the RMA delegates to the embedded collaborator. -/
def reset (s : RelativeMovingAverage) : RelativeMovingAverage :=
  { ema := s.ema.reset }

/-- `fmt::Display` for the RMA: `"RMA(<period>)"`. -/
def displayString (s : RelativeMovingAverage) : String :=
  "RMA(" ++ toString s.ema.period ++ ")"

/-- Feed a list of inputs through `next`. -/
def run (s : RelativeMovingAverage) (xs : List ℚ) :
    RelativeMovingAverage × List ℚ :=
  runStream next s xs

/-- The outputs of feeding a list of inputs through `next`. -/
def outputs (s : RelativeMovingAverage) (xs : List ℚ) : List ℚ :=
  (s.run xs).2

end RelativeMovingAverage

/-- The algorithm tag of the selector, `MovingAverageType`. -/
inductive MovingAverageType where
  | Simple
  | Exponential
  | Relative
  | Linear
deriving DecidableEq

/-- The selector `MovingAverage`: a tagged union over the four variants. -/
inductive MovingAverage where
  | Simple (x : SimpleMovingAverage)
  | Exponential (x : ExponentialMovingAverage)
  | Relative (x : RelativeMovingAverage)
  | Linear (x : LinearlyWeightedMovingAverage)
deriving DecidableEq

namespace MovingAverage

/-- `MovingAverage::new(type, period)`: builds the tagged variant,
propagating the variant's construction error unchanged (the `?` operator of
the source). -/
def new (t : MovingAverageType) (period : ℕ) : Except TaError MovingAverage :=
  match t with
  | .Simple => (SimpleMovingAverage.new period).map .Simple
  | .Exponential => (ExponentialMovingAverage.new period).map .Exponential
  | .Relative => (RelativeMovingAverage.new period).map .Relative
  | .Linear => (LinearlyWeightedMovingAverage.new period).map .Linear

/-- `Period` for the selector forwards to the active variant. -/
def period : MovingAverage → ℕ
  | .Simple x => x.period
  | .Exponential x => x.period
  | .Relative x => x.period
  | .Linear x => x.period

/-- `Next::<f64>::next` for the selector forwards to the active variant. -/
def next (m : MovingAverage) (input : ℚ) : MovingAverage × ℚ :=
  match m with
  | .Simple x => let p := x.next input; (.Simple p.1, p.2)
  | .Exponential x => let p := x.next input; (.Exponential p.1, p.2)
  | .Relative x => let p := x.next input; (.Relative p.1, p.2)
  | .Linear x => let p := x.next input; (.Linear p.1, p.2)

/-- `Next::<&T>::next` for the selector forwards the capability-bearing input
to the active variant's overload. -/
def nextClose {α : Type} [Close α] (m : MovingAverage) (t : α) :
    MovingAverage × ℚ :=
  match m with
  | .Simple x => let p := x.nextClose t; (.Simple p.1, p.2)
  | .Exponential x => let p := x.nextClose t; (.Exponential p.1, p.2)
  | .Relative x => let p := x.nextClose t; (.Relative p.1, p.2)
  | .Linear x => let p := x.nextClose t; (.Linear p.1, p.2)

/-- `Reset` for the selector forwards to the active variant. -/
def reset : MovingAverage → MovingAverage
  | .Simple x => .Simple x.reset
  | .Exponential x => .Exponential x.reset
  | .Relative x => .Relative x.reset
  | .Linear x => .Linear x.reset

/-- `fmt::Display` for the selector: `"MA(<period>)"`, reporting only the
period. -/
def displayString (m : MovingAverage) : String :=
  "MA(" ++ toString m.period ++ ")"

/-- Feed a list of inputs through `next`. -/
def run (m : MovingAverage) (xs : List ℚ) : MovingAverage × List ℚ :=
  runStream next m xs

/-- The outputs of feeding a list of inputs through `next`. -/
def outputs (m : MovingAverage) (xs : List ℚ) : List ℚ :=
  (m.run xs).2

end MovingAverage

/-- From-scratch recomputation, following the spec's words: the weighted
average `Σ(weight·value)/Σ(weight)` over the most recent
`min(count, period)` samples, weight 1 for the oldest retained sample. -/
def lwmaFromScratch (p : ℕ) (xs : List ℚ) : ℚ :=
  wSum (window p xs) / tri (min xs.length p)

/-- A bar record carrying a closing value, as the capability-bearing input
type of the tests. -/
structure Bar where
  close : ℚ
deriving DecidableEq

instance : Close Bar := ⟨Bar.close⟩

/-- The states of a period-`p` LWMA reachable from construction by `next` and
`reset`, together with the inputs fed since the last reset (or since
construction). -/
inductive Traced (p : ℕ) : LinearlyWeightedMovingAverage → List ℚ → Prop where
  | init : Traced p (LinearlyWeightedMovingAverage.init p) []
  | next : ∀ {s h x}, Traced p s h → Traced p (s.next x).1 (h ++ [x])
  | reset : ∀ {s h}, Traced p s h → Traced p s.reset []

/-- The LWMA state invariant of the spec: `index` is a valid buffer slot,
`count` counts the samples seen capped at `period`, the buffer has fixed
length `period`, `sum` is the arithmetic sum of the buffer contents, and the
buffer read circularly from `index` ends with the last `min(count, period)`
inputs in chronological order. -/
def StateInv (p : ℕ) (s : LinearlyWeightedMovingAverage) (h : List ℚ) : Prop :=
  s.period = p ∧ s.index < p ∧ s.count = min h.length p ∧ s.count ≤ p ∧
  s.deque.length = p ∧ s.sum = s.deque.sum ∧
  s.chron.drop (p - s.count) = window p h

/-- The steady-state abstraction of a full LWMA: the state of a period-`p`
indicator whose circular buffer, read chronologically, is `w`, with the
cached sums agreeing with `w`. -/
def FullInv (p : ℕ) (w : List ℚ) (s : LinearlyWeightedMovingAverage) : Prop :=
  s.period = p ∧ s.count = p ∧ s.index < p ∧ s.deque.length = p ∧
  s.chron = w ∧ s.sum = w.sum ∧ s.weighted_sum = wSum w

/-! ### Generic driver lemmas -/

theorem runStream_nil {σ : Type} (step : σ → ℚ → σ × ℚ) (s : σ) :
    runStream step s [] = (s, []) := rfl

theorem runStream_cons {σ : Type} (step : σ → ℚ → σ × ℚ) (s : σ) (x : ℚ)
    (xs : List ℚ) :
    runStream step s (x :: xs) =
      ((runStream step (step s x).1 xs).1,
        (step s x).2 :: (runStream step (step s x).1 xs).2) := rfl

theorem runStream_append {σ : Type} (step : σ → ℚ → σ × ℚ) (s : σ)
    (xs ys : List ℚ) :
    runStream step s (xs ++ ys) =
      ((runStream step (runStream step s xs).1 ys).1,
        (runStream step s xs).2 ++ (runStream step (runStream step s xs).1 ys).2) := by
  induction xs generalizing s with
  | nil => simp [runStream_nil]
  | cons x xs ih => simp [runStream_cons, ih]

theorem runStream_concat {σ : Type} (step : σ → ℚ → σ × ℚ) (s : σ)
    (xs : List ℚ) (x : ℚ) :
    runStream step s (xs ++ [x]) =
      ((step (runStream step s xs).1 x).1,
        (runStream step s xs).2 ++ [(step (runStream step s xs).1 x).2]) := by
  rw [runStream_append]
  simp [runStream_cons, runStream_nil]

theorem length_runStream {σ : Type} (step : σ → ℚ → σ × ℚ) (s : σ)
    (xs : List ℚ) :
    (runStream step s xs).2.length = xs.length := by
  induction xs generalizing s with
  | nil => rfl
  | cons x xs ih => simp [runStream_cons, ih]

theorem runStream_sim {σ τ : Type} (emb : σ → τ) (step1 : σ → ℚ → σ × ℚ)
    (step2 : τ → ℚ → τ × ℚ)
    (hstep : ∀ s x, step2 (emb s) x = (emb (step1 s x).1, (step1 s x).2))
    (xs : List ℚ) (s : σ) :
    runStream step2 (emb s) xs =
      (emb (runStream step1 s xs).1, (runStream step1 s xs).2) := by
  induction xs generalizing s with
  | nil => simp [runStream_nil]
  | cons x xs ih => simp [runStream_cons, hstep, ih]

/-! ### Weighted-sum lemmas -/

theorem wSumFrom_cons (k x : ℚ) (xs : List ℚ) :
    wSumFrom k (x :: xs) = k * x + wSumFrom (k + 1) xs := rfl

theorem wSumFrom_concat (k : ℚ) (xs : List ℚ) (x : ℚ) :
    wSumFrom k (xs ++ [x]) = wSumFrom k xs + (k + xs.length) * x := by
  induction xs generalizing k with
  | nil => simp [wSumFrom]
  | cons y ys ih =>
    simp only [List.cons_append, wSumFrom_cons, ih, List.length_cons]
    push_cast
    ring

theorem wSumFrom_succ (k : ℚ) (xs : List ℚ) :
    wSumFrom (k + 1) xs = wSumFrom k xs + xs.sum := by
  induction xs generalizing k with
  | nil => simp [wSumFrom]
  | cons y ys ih =>
    simp only [wSumFrom_cons, List.sum_cons, ih]
    ring

theorem wSum_concat (xs : List ℚ) (x : ℚ) :
    wSum (xs ++ [x]) = wSum xs + (1 + (xs.length : ℚ)) * x :=
  wSumFrom_concat 1 xs x

/-- The algebraic heart of the full-window update: shifting every weight down
by one and inserting the newest sample at the top weight is the identity
`weighted_sum - sum + length * x`. -/
theorem wSum_shift_insert (w : List ℚ) (x : ℚ) (hw : w ≠ []) :
    wSum (w.tail ++ [x]) = wSum w - w.sum + (w.length : ℚ) * x := by
  cases w with
  | nil => exact absurd rfl hw
  | cons y t =>
    simp only [List.tail_cons, wSum, wSumFrom_cons, List.sum_cons,
      List.length_cons]
    rw [wSumFrom_concat, wSumFrom_succ]
    push_cast
    ring

/-! ### List helpers -/

theorem getD_append_length (l₁ l₂ : List ℚ) (d : ℚ) :
    (l₁ ++ l₂).getD l₁.length d = l₂.getD 0 d := by
  induction l₁ with
  | nil => rfl
  | cons a t ih => simpa using ih

theorem foldl_set_zero (n : ℕ) (d : List ℚ) (h : n ≤ d.length) :
    (List.range n).foldl (fun d i => d.set i 0) d =
      List.replicate n 0 ++ d.drop n := by
  induction n with
  | zero => simp
  | succ m ih =>
    rw [List.range_succ, List.foldl_append, ih (by omega)]
    simp only [List.foldl_cons, List.foldl_nil]
    rw [List.set_append_right _ _ (by simp)]
    simp only [List.length_replicate, Nat.sub_self]
    rw [List.drop_eq_getElem_cons (show m < d.length by omega),
      List.set_cons_zero, List.replicate_succ' m (0 : ℚ), List.append_assoc]
    rfl

theorem window_nil_of_le (p : ℕ) (xs : List ℚ) (h : xs.length ≤ p) :
    window p xs = xs := by
  simp [window, Nat.sub_eq_zero_of_le h]

theorem window_length (p : ℕ) (xs : List ℚ) (h : p ≤ xs.length) :
    (window p xs).length = p := by
  simp only [window, List.length_drop]
  omega

theorem window_concat (p : ℕ) (hp : 1 ≤ p) (ys : List ℚ) (x : ℚ)
    (h : p ≤ ys.length) :
    window p (ys ++ [x]) = (window p ys).tail ++ [x] := by
  have he : ys.length + 1 - p = ys.length - p + 1 := by omega
  simp only [window, List.length_append, List.length_singleton, List.tail_drop]
  rw [List.drop_append_of_le_length (by omega), he]

/-! ### LWMA: filling phase -/

namespace LinearlyWeightedMovingAverage

theorem next_fill (p : ℕ) (ys : List ℚ) (hn : ys.length < p) (x : ℚ) :
    next { period := p, index := ys.length, count := ys.length,
           weighted_sum := wSum ys, sum := ys.sum,
           deque := ys ++ List.replicate (p - ys.length) 0 } x =
      ({ period := p, index := (ys.length + 1) % p, count := ys.length + 1,
         weighted_sum := wSum (ys ++ [x]), sum := (ys ++ [x]).sum,
         deque := (ys ++ [x]) ++ List.replicate (p - (ys.length + 1)) 0 },
       wSum (ys ++ [x]) / tri (ys.length + 1)) := by
  have hrep : p - ys.length = (p - (ys.length + 1)) + 1 := by omega
  have hold : (ys ++ List.replicate (p - ys.length) 0).getD ys.length 0 = 0 := by
    rw [getD_append_length, hrep, List.replicate_succ]
    rfl
  have hset : (ys ++ List.replicate (p - ys.length) 0).set ys.length x =
      (ys ++ [x]) ++ List.replicate (p - (ys.length + 1)) 0 := by
    rw [List.set_append_right _ _ (le_refl _), Nat.sub_self, hrep,
      List.replicate_succ, List.set_cons_zero, List.append_assoc]
    rfl
  simp only [next, hold, hset, if_pos hn]
  simp only [Prod.mk.injEq, mk.injEq]
  refine ⟨⟨trivial, ?_, trivial, ?_, ?_, trivial⟩, ?_⟩
  · rcases Nat.lt_or_ge (ys.length + 1) p with h1 | h1
    · rw [if_pos h1, Nat.mod_eq_of_lt h1]
    · have hep : ys.length + 1 = p := by omega
      rw [if_neg (by omega), hep, Nat.mod_self]
  · rw [wSum_concat]
    push_cast
    ring
  · simp only [List.sum_append, List.sum_cons, List.sum_nil]
    ring
  · rw [wSum_concat, tri]
    push_cast
    ring

theorem run_fill (p : ℕ) (_hp : 1 ≤ p) (xs : List ℚ) (h : xs.length ≤ p) :
    (init p).run xs =
      ({ period := p, index := xs.length % p, count := xs.length,
         weighted_sum := wSum xs, sum := xs.sum,
         deque := xs ++ List.replicate (p - xs.length) 0 },
       (List.range xs.length).map
         (fun i => wSum (xs.take (i + 1)) / tri (i + 1))) := by
  induction xs using List.reverseRecOn with
  | nil =>
    simp [run, runStream_nil, init, wSum, wSumFrom]
  | append_singleton ys x ih =>
    have hys : ys.length < p := by
      have := List.length_append ys [x] ▸ h
      simp at this
      omega
    have hmod : ys.length % p = ys.length := Nat.mod_eq_of_lt hys
    rw [run] at ih ⊢
    rw [runStream_concat, ih (le_of_lt hys)]
    simp only [hmod]
    rw [next_fill p ys hys x]
    simp only [List.length_append, List.length_singleton, Prod.mk.injEq]
    refine ⟨trivial, ?_⟩
    rw [List.range_succ, List.map_append, List.map_singleton]
    congr 1
    · apply List.map_congr_left
      intro i hi
      have hi' : i + 1 ≤ ys.length := by
        simpa [Nat.succ_le] using List.mem_range.mp hi
      rw [List.take_append_of_le_length hi']
    · rw [List.take_of_length_le (by simp)]

/-! ### LWMA: steady state -/

theorem next_full (p : ℕ) (_hp : 1 ≤ p) (s : LinearlyWeightedMovingAverage)
    (w : List ℚ) (h : FullInv p w s) (x : ℚ) :
    FullInv p (w.tail ++ [x]) (s.next x).1 ∧
      (s.next x).2 = wSum (w.tail ++ [x]) / tri p := by
  obtain ⟨hper, hcnt, hidx, hlen, hchron, hsum, hws⟩ := h
  obtain ⟨per, idx, cnt, ws, sm, d⟩ := s
  dsimp only at hper hcnt hidx hlen hchron hsum hws
  have hper' : p = per := hper.symm
  subst hper'
  have hcnt' : p = cnt := hcnt.symm
  subst hcnt'
  dsimp only [chron] at hchron
  have hidx' : idx < d.length := by omega
  have hw : w = d[idx] :: (d.drop (idx + 1) ++ d.take idx) := by
    rw [← hchron, List.drop_eq_getElem_cons hidx', List.cons_append]
  subst hw
  have hold : d.getD idx 0 = d[idx] := List.getD_eq_getElem d 0 hidx'
  have hset : d.set idx x = d.take idx ++ x :: d.drop (idx + 1) :=
    List.set_eq_take_cons_drop x hidx'
  have htklen : (d.take idx).length = idx := List.length_take_of_le (le_of_lt hidx')
  have hnum : ws - sm + (p : ℚ) * x =
      wSum ((d.drop (idx + 1) ++ d.take idx) ++ [x]) := by
    rw [show (d.drop (idx + 1) ++ d.take idx) ++ [x] =
          (d[idx] :: (d.drop (idx + 1) ++ d.take idx)).tail ++ [x] from rfl,
      wSum_shift_insert _ x (List.cons_ne_nil _ _)]
    have hlenw : (d[idx] :: (d.drop (idx + 1) ++ d.take idx)).length = p := by
      simp only [List.length_cons, List.length_append, List.length_drop, htklen]
      omega
    rw [hlenw, ← hws, ← hsum]
  simp only [next, hold, hset, List.tail_cons]
  rw [if_neg (lt_irrefl p)]
  refine ⟨⟨rfl, rfl, ?_, ?_, ?_, ?_, ?_⟩, ?_⟩
  · dsimp only
    split <;> omega
  · dsimp only
    simp only [List.length_append, List.length_cons, List.length_drop, htklen]
    omega
  · dsimp only [chron]
    by_cases hc : idx + 1 < p
    · rw [if_pos hc]
      have h1 : (d.take idx ++ x :: d.drop (idx + 1)).drop (idx + 1) =
          d.drop (idx + 1) := by
        rw [show idx + 1 = (d.take idx).length + 1 from by rw [htklen],
          List.drop_append]
        rfl
      have h2 : (d.take idx ++ x :: d.drop (idx + 1)).take (idx + 1) =
          d.take idx ++ [x] := by
        rw [show idx + 1 = (d.take idx).length + 1 from by rw [htklen],
          List.take_append]
        rfl
      rw [h1, h2, ← List.append_assoc]
    · rw [if_neg hc]
      have hdp : d.drop (idx + 1) = [] := by
        apply List.drop_eq_nil_of_le
        omega
      simp [hdp]
  · dsimp only
    rw [hsum]
    simp only [List.sum_append, List.sum_cons, List.sum_nil]
    ring
  · exact hnum
  · dsimp only
    rw [hnum]
    rfl

theorem run_full (p : ℕ) (hp : 1 ≤ p) (xs : List ℚ) (h : p ≤ xs.length) :
    FullInv p (window p xs) ((init p).run xs).1 := by
  induction xs using List.reverseRecOn with
  | nil =>
    simp only [List.length_nil] at h
    omega
  | append_singleton ys x ih =>
    rcases Nat.lt_or_ge ys.length p with hlt | hge
    · have hlenp : (ys ++ [x]).length = p := by
        simp only [List.length_append, List.length_singleton] at h ⊢
        omega
      have hwin : window p (ys ++ [x]) = ys ++ [x] :=
        window_nil_of_le p (ys ++ [x]) (le_of_eq hlenp)
      rw [hwin, run_fill p hp (ys ++ [x]) (le_of_eq hlenp), hlenp]
      simp only [Nat.mod_self, Nat.sub_self, List.replicate_zero, List.append_nil]
      refine ⟨rfl, rfl, by dsimp only; omega, hlenp, ?_, rfl, rfl⟩
      simp [chron]
    · rw [window_concat p hp ys x hge, run, runStream_concat]
      exact (next_full p hp _ _ (ih hge) x).1

/-! ### Claim theorems for the LWMA -/

/-- C9: a period-4 LWMA fed `4, 5, 6, 6, 6, 6, 2` returns, call by call,
exactly `4, 14/3, 32/6, 5.6, 5.9, 6, 4.4`. -/
theorem lwma_concrete_scenario :
    (init 4).outputs [4, 5, 6, 6, 6, 6, 2] =
      [4, 14 / 3, 32 / 6, 5.6, 5.9, 6, 4.4] := by
  simp only [outputs, run, runStream, next, init]
  norm_num [Ta.runStream]

theorem getD_map_range (n : ℕ) (f : ℕ → ℚ) (i : ℕ) (hi : i < n) :
    ((List.range n).map f).getD i 0 = f i := by
  rw [List.getD_eq_getElem _ _ (by simpa using hi)]
  simp

theorem warmup_last (p : ℕ) (hp : 1 ≤ p) (xs : List ℚ)
    (hlen : xs.length ≤ p) (hne : xs ≠ []) :
    ((init p).outputs xs).getD (xs.length - 1) 0 = wSum xs / tri xs.length := by
  have hn : 1 ≤ xs.length := List.length_pos.mpr hne
  rw [outputs, run_fill p hp xs hlen]
  rw [show ((_ : LinearlyWeightedMovingAverage), (List.range xs.length).map
      (fun i => wSum (xs.take (i + 1)) / tri (i + 1))).2 =
      (List.range xs.length).map
        (fun i => wSum (xs.take (i + 1)) / tri (i + 1)) from rfl]
  rw [getD_map_range _ _ _ (by omega),
    show xs.length - 1 + 1 = xs.length from by omega, List.take_length]

/-- C1: for every period `p ≥ 1` and every sequence of `k ≤ p` inputs, the
`k`-th returned value is `Σ_{i=1..k} i*x_i` divided by the triangular number
`k*(k+1)/2` — the oldest retained sample carries weight 1, the newest
weight `k`. -/
theorem lwma_triangular_warmup (p : ℕ) (hp : 1 ≤ p) (xs : List ℚ)
    (hlen : xs.length ≤ p) (hne : xs ≠ []) :
    ((init p).outputs xs).getD (xs.length - 1) 0 = wSum xs / tri xs.length :=
  warmup_last p hp xs hlen hne

/-- Witness for C1 at `p = 2`, inputs `[3, 5]`: the second output is
`(1*3 + 2*5) / 3`. -/
theorem lwma_triangular_warmup_witness :
    ((init 2).outputs [3, 5]).getD 1 0 = wSum [3, 5] / tri 2 :=
  lwma_triangular_warmup 2 (by norm_num) [3, 5] (by norm_num) (by simp)

theorem steady_last (p : ℕ) (hp : 1 ≤ p) (xs : List ℚ)
    (h : p ≤ xs.length) :
    ((init p).outputs xs).getD (xs.length - 1) 0 = wSum (window p xs) / tri p := by
  rcases Nat.lt_or_ge p xs.length with hlt | hge
  · rcases List.eq_nil_or_concat xs with hnil | ⟨ys, x, hcc⟩
    · subst hnil
      simp at h
      omega
    · rw [List.concat_eq_append] at hcc
      subst hcc
      have hge' : p ≤ ys.length := by
        simp only [List.length_append, List.length_singleton] at hlt
        omega
      have hout := (next_full p hp _ _ (run_full p hp ys hge') x).2
      rw [outputs, run, runStream_concat]
      rw [show (ys ++ [x]).length - 1 = (runStream next (init p) ys).2.length
          from by rw [length_runStream]; simp]
      rw [getD_append_length, window_concat p hp ys x hge']
      simpa using hout
  · have hlen : xs.length = p := by omega
    have hne : xs ≠ [] := by
      intro hnil
      rw [hnil] at hlen
      simp at hlen
      omega
    rw [warmup_last p hp xs (by omega) hne,
      window_nil_of_le p xs (by omega), hlen]

/-- C2: once at least `period` inputs have been fed, every subsequent call
returns exactly the triangular-weighted average, recomputed from scratch, of
the last `period` inputs only — the incremental update
`weighted_sum - sum + period*value` agrees with the from-scratch weighted
sum over the shifted window, and older inputs have no influence. -/
theorem lwma_steady_state (p : ℕ) (hp : 1 ≤ p) (xs : List ℚ) (i : ℕ)
    (hip : p ≤ i + 1) (hi : i < xs.length) :
    ((init p).outputs xs).getD i 0 =
      wSum (window p (xs.take (i + 1))) / tri p ∧
      wSum (window p (xs.take (i + 1))) / tri p =
        lwmaFromScratch p (xs.take (i + 1)) := by
  have hlt : (xs.take (i + 1)).length = i + 1 :=
    List.length_take_of_le (by omega)
  constructor
  · have hsplit := runStream_append next (init p) (xs.take (i + 1)) (xs.drop (i + 1))
    rw [List.take_append_drop] at hsplit
    have hpre : (init p).outputs xs =
        ((init p).run (xs.take (i + 1))).2 ++
          ((((init p).run (xs.take (i + 1))).1).run (xs.drop (i + 1))).2 := by
      rw [outputs, run, hsplit]
      rfl
    have hlen1 : ((init p).run (xs.take (i + 1))).2.length = i + 1 := by
      rw [run, length_runStream, hlt]
    rw [hpre, List.getD_append _ _ _ _ (by omega)]
    have hfin := steady_last p hp (xs.take (i + 1)) (by omega)
    rw [hlt] at hfin
    simpa [outputs] using hfin
  · rw [lwmaFromScratch, hlt, Nat.min_eq_right hip]

/-- Witness for C2 at `p = 2`, inputs `[1, 2, 3]`, third call (`i = 2`): the
output is `(1*2 + 2*3) / 3`, independent of the first input. -/
theorem lwma_steady_state_witness :
    ((init 2).outputs [1, 2, 3]).getD 2 0 =
      wSum (window 2 ([1, 2, 3].take 3)) / tri 2 ∧
      wSum (window 2 ([1, 2, 3].take 3)) / tri 2 =
        lwmaFromScratch 2 ([1, 2, 3].take 3) :=
  lwma_steady_state 2 (by norm_num) [1, 2, 3] 2 (by norm_num) (by norm_num)

/-! ### LWMA: reset and reachable states -/

theorem next_deque (s : LinearlyWeightedMovingAverage) (x : ℚ) :
    ((s.next x).1).deque = s.deque.set s.index x := by
  simp only [next]
  split <;> rfl

theorem next_period (s : LinearlyWeightedMovingAverage) (x : ℚ) :
    ((s.next x).1).period = s.period := by
  simp only [next]
  split <;> rfl

theorem run_period (s : LinearlyWeightedMovingAverage) (xs : List ℚ) :
    ((s.run xs).1).period = s.period := by
  induction xs generalizing s with
  | nil => rfl
  | cons x xs ih =>
    rw [run, runStream_cons]
    exact (ih ((s.next x).1)).trans (next_period s x)

theorem run_deque_length (s : LinearlyWeightedMovingAverage) (xs : List ℚ) :
    ((s.run xs).1).deque.length = s.deque.length := by
  induction xs generalizing s with
  | nil => rfl
  | cons x xs ih =>
    rw [run, runStream_cons]
    exact (ih ((s.next x).1)).trans (by rw [next_deque, List.length_set])

theorem length_foldl_set (l : List ℕ) (d : List ℚ) :
    (l.foldl (fun d i => d.set i 0) d).length = d.length := by
  induction l generalizing d with
  | nil => rfl
  | cons i l ih => rw [List.foldl_cons, ih, List.length_set]

theorem reset_eq_init (s : LinearlyWeightedMovingAverage)
    (h : s.deque.length = s.period) : s.reset = init s.period := by
  simp only [reset, init]
  rw [foldl_set_zero _ _ (le_of_eq h.symm), ← h, List.drop_length,
    List.append_nil]

theorem run_init_reset (p : ℕ) (xs : List ℚ) :
    ((((init p).run xs).1).reset) = init p := by
  have hlen : (((init p).run xs).1).deque.length = (((init p).run xs).1).period := by
    rw [run_deque_length, run_period]
    simp [init]
  rw [reset_eq_init _ hlen, run_period]
  rfl

theorem traced_period {p : ℕ} {s : LinearlyWeightedMovingAverage} {h : List ℚ}
    (ht : Traced p s h) : s.period = p := by
  induction ht with
  | init => rfl
  | next ht ih => rw [next_period]; exact ih
  | reset ht ih => exact ih

theorem traced_deque_length {p : ℕ} {s : LinearlyWeightedMovingAverage}
    {h : List ℚ} (ht : Traced p s h) : s.deque.length = p := by
  induction ht with
  | init => simp [init]
  | next ht ih => rw [next_deque, List.length_set]; exact ih
  | reset ht ih =>
    simp only [reset]
    rw [length_foldl_set]
    exact ih

theorem traced_state (p : ℕ) (s : LinearlyWeightedMovingAverage) (h : List ℚ)
    (ht : Traced p s h) : s = ((init p).run h).1 := by
  induction ht with
  | init => rfl
  | next ht ih =>
    rw [run, runStream_concat, ← run, ← ih]
  | reset ht ih =>
    rw [reset_eq_init _ ((traced_deque_length ht).trans (traced_period ht).symm),
      traced_period ht]
    rfl

theorem sum_drop_take (l : List ℚ) (n : ℕ) :
    (l.drop n ++ l.take n).sum = l.sum := by
  rw [List.sum_append, add_comm, ← List.sum_append, List.take_append_drop]

/-- C8: the LWMA state invariant is established by `new` and preserved by
every `next` and `reset`: `index` is always a valid buffer slot, `count`
never exceeds `period`, the buffer holds the last `min(count, period)`
inputs in circular order, and `sum` is the arithmetic sum of the buffer
contents. -/
theorem lwma_state_invariant (p : ℕ) (hp : 1 ≤ p)
    (s : LinearlyWeightedMovingAverage) (h : List ℚ) (ht : Traced p s h) :
    StateInv p s h := by
  have hs := traced_state p s h ht
  subst hs
  rcases Nat.lt_or_ge h.length p with hl | hl
  · rw [run_fill p hp h (le_of_lt hl)]
    refine ⟨rfl, ?_, ?_, ?_, ?_, ?_, ?_⟩
    · exact Nat.mod_lt _ (by omega)
    · exact (Nat.min_eq_left (le_of_lt hl)).symm
    · dsimp only
      exact le_of_lt hl
    · simp only [List.length_append, List.length_replicate]
      omega
    · simp [List.sum_append, List.sum_replicate]
    · dsimp only [chron]
      rw [Nat.mod_eq_of_lt hl, List.drop_append_of_le_length (le_refl _),
        List.drop_length, List.nil_append,
        List.take_append_of_le_length (le_refl _), List.take_length,
        List.drop_append_of_le_length (by simp),
        List.drop_eq_nil_of_le (by simp), List.nil_append,
        window_nil_of_le p h (le_of_lt hl)]
  · obtain ⟨hper, hcnt, hidx, hlen, hchron, hsum, hws⟩ := run_full p hp h hl
    refine ⟨hper, hidx, ?_, ?_, hlen, ?_, ?_⟩
    · rw [hcnt]
      exact (Nat.min_eq_right hl).symm
    · rw [hcnt]
    · rw [hsum, ← hchron]
      simp only [chron]
      exact sum_drop_take _ _
    · rw [hcnt, Nat.sub_self, List.drop_zero]
      exact hchron

/-- Witness for C8: the invariant holds for the state reached from
construction with period 2 after one `next`, one `reset` and one more
`next`. -/
theorem lwma_state_invariant_witness :
    StateInv 2 ((((init 2).next 7).1.reset).next 5).1 ([] ++ [5]) :=
  lwma_state_invariant 2 (by norm_num) _ _
    (Traced.next (Traced.reset (Traced.next Traced.init)))

end LinearlyWeightedMovingAverage

/-- C3 (code bug): the LWMA's display label is the literal `"SMA(period)"`,
which is the Simple Moving Average's label rather than one identifying the
linearly weighted algorithm (compare the RMA, which displays `"RMA(period)"`). -/
theorem lwma_display_collides_with_sma :
    (LinearlyWeightedMovingAverage.init 5).displayString = "SMA(5)" ∧
      (SimpleMovingAverage.init 5).displayString = "SMA(5)" ∧
      ({ ema := { period := 7, k := 1 / 7, current := 0, is_new := true } } :
          RelativeMovingAverage).displayString = "RMA(7)" :=
  ⟨rfl, rfl, rfl⟩

/-- C4: construction with period 0 fails with `InvalidParameter` for the
LWMA, the RMA and the selector under every tag; construction with any
period `≥ 1` succeeds. -/
theorem construction_validity :
    (LinearlyWeightedMovingAverage.new 0 = .error .invalidParameter) ∧
      (RelativeMovingAverage.new 0 = .error .invalidParameter) ∧
      (∀ t, MovingAverage.new t 0 = .error .invalidParameter) ∧
      (∀ p, 1 ≤ p →
        (∃ s, LinearlyWeightedMovingAverage.new p = .ok s) ∧
          (∃ r, RelativeMovingAverage.new p = .ok r) ∧
          (∀ t, ∃ m, MovingAverage.new t p = .ok m)) := by
  refine ⟨rfl, rfl, ?_, ?_⟩
  · intro t
    cases t <;> rfl
  · intro p hp
    obtain ⟨q, rfl⟩ : ∃ q, p = q + 1 := ⟨p - 1, by omega⟩
    refine ⟨⟨_, rfl⟩, ⟨_, rfl⟩, ?_⟩
    intro t
    cases t <;> exact ⟨_, rfl⟩

/-- Witness for C4 at period 1: the LWMA and RMA constructors and the
selector with the Linear tag all succeed. -/
theorem construction_validity_witness :
    (∃ s, LinearlyWeightedMovingAverage.new 1 = .ok s) ∧
      (∃ r, RelativeMovingAverage.new 1 = .ok r) ∧
      (∃ m, MovingAverage.new .Linear 1 = .ok m) :=
  ⟨(construction_validity.2.2.2 1 (by norm_num)).1,
    (construction_validity.2.2.2 1 (by norm_num)).2.1,
    (construction_validity.2.2.2 1 (by norm_num)).2.2 .Linear⟩

/-! ### EMA, SMA, RMA and selector lemmas -/

theorem ema_next_period (s : ExponentialMovingAverage) (x : ℚ) :
    ((s.next x).1).period = s.period := by
  simp only [ExponentialMovingAverage.next]
  split <;> rfl

theorem ema_next_k (s : ExponentialMovingAverage) (x : ℚ) :
    ((s.next x).1).k = s.k := by
  simp only [ExponentialMovingAverage.next]
  split <;> rfl

theorem ema_run_period (s : ExponentialMovingAverage) (xs : List ℚ) :
    ((s.run xs).1).period = s.period := by
  induction xs generalizing s with
  | nil => rfl
  | cons x xs ih =>
    rw [ExponentialMovingAverage.run, runStream_cons]
    exact (ih ((s.next x).1)).trans (ema_next_period s x)

theorem ema_run_k (s : ExponentialMovingAverage) (xs : List ℚ) :
    ((s.run xs).1).k = s.k := by
  induction xs generalizing s with
  | nil => rfl
  | cons x xs ih =>
    rw [ExponentialMovingAverage.run, runStream_cons]
    exact (ih ((s.next x).1)).trans (ema_next_k s x)

theorem ema_run_reset (e : ExponentialMovingAverage) (xs : List ℚ) :
    (((e.run xs).1).reset) = e.reset := by
  simp only [ExponentialMovingAverage.reset]
  rw [ema_run_period, ema_run_k]

theorem sma_next_deque (s : SimpleMovingAverage) (x : ℚ) :
    ((s.next x).1).deque = s.deque.set s.index x := by
  simp only [SimpleMovingAverage.next]
  split <;> rfl

theorem sma_next_period (s : SimpleMovingAverage) (x : ℚ) :
    ((s.next x).1).period = s.period := by
  simp only [SimpleMovingAverage.next]
  split <;> rfl

theorem sma_run_period (s : SimpleMovingAverage) (xs : List ℚ) :
    ((s.run xs).1).period = s.period := by
  induction xs generalizing s with
  | nil => rfl
  | cons x xs ih =>
    rw [SimpleMovingAverage.run, runStream_cons]
    exact (ih ((s.next x).1)).trans (sma_next_period s x)

theorem sma_run_deque_length (s : SimpleMovingAverage) (xs : List ℚ) :
    ((s.run xs).1).deque.length = s.deque.length := by
  induction xs generalizing s with
  | nil => rfl
  | cons x xs ih =>
    rw [SimpleMovingAverage.run, runStream_cons]
    exact (ih ((s.next x).1)).trans (by rw [sma_next_deque, List.length_set])

theorem sma_reset_eq_init (s : SimpleMovingAverage)
    (h : s.deque.length = s.period) : s.reset = SimpleMovingAverage.init s.period := by
  simp only [SimpleMovingAverage.reset, SimpleMovingAverage.init]
  rw [foldl_set_zero _ _ (le_of_eq h.symm), ← h, List.drop_length,
    List.append_nil]

theorem sma_run_init_reset (p : ℕ) (xs : List ℚ) :
    ((((SimpleMovingAverage.init p).run xs).1).reset) = SimpleMovingAverage.init p := by
  have hlen : (((SimpleMovingAverage.init p).run xs).1).deque.length =
      (((SimpleMovingAverage.init p).run xs).1).period := by
    rw [sma_run_deque_length, sma_run_period]
    simp [SimpleMovingAverage.init]
  rw [sma_reset_eq_init _ hlen, sma_run_period]
  rfl

theorem rma_run (e : ExponentialMovingAverage) (xs : List ℚ) :
    (RelativeMovingAverage.mk e).run xs =
      ({ ema := (e.run xs).1 }, (e.run xs).2) := by
  simp only [RelativeMovingAverage.run, ExponentialMovingAverage.run]
  exact runStream_sim RelativeMovingAverage.mk ExponentialMovingAverage.next
    RelativeMovingAverage.next (fun _ _ => rfl) xs e

theorem rma_run_reset (r : RelativeMovingAverage) (xs : List ℚ) :
    (((r.run xs).1).reset) = r.reset := by
  obtain ⟨e⟩ := r
  rw [rma_run]
  simp only [RelativeMovingAverage.reset]
  rw [ema_run_reset]

theorem ma_run_Simple (x : SimpleMovingAverage) (xs : List ℚ) :
    (MovingAverage.Simple x).run xs = (.Simple ((x.run xs).1), (x.run xs).2) := by
  simp only [MovingAverage.run, SimpleMovingAverage.run]
  exact runStream_sim MovingAverage.Simple SimpleMovingAverage.next
    MovingAverage.next (fun _ _ => rfl) xs x

theorem ma_run_Exponential (x : ExponentialMovingAverage) (xs : List ℚ) :
    (MovingAverage.Exponential x).run xs =
      (.Exponential ((x.run xs).1), (x.run xs).2) := by
  simp only [MovingAverage.run, ExponentialMovingAverage.run]
  exact runStream_sim MovingAverage.Exponential ExponentialMovingAverage.next
    MovingAverage.next (fun _ _ => rfl) xs x

theorem ma_run_Relative (x : RelativeMovingAverage) (xs : List ℚ) :
    (MovingAverage.Relative x).run xs =
      (.Relative ((x.run xs).1), (x.run xs).2) := by
  simp only [MovingAverage.run, RelativeMovingAverage.run]
  exact runStream_sim MovingAverage.Relative RelativeMovingAverage.next
    MovingAverage.next (fun _ _ => rfl) xs x

theorem ma_run_Linear (x : LinearlyWeightedMovingAverage) (xs : List ℚ) :
    (MovingAverage.Linear x).run xs = (.Linear ((x.run xs).1), (x.run xs).2) := by
  simp only [MovingAverage.run, LinearlyWeightedMovingAverage.run]
  exact runStream_sim MovingAverage.Linear LinearlyWeightedMovingAverage.next
    MovingAverage.next (fun _ _ => rfl) xs x

/-- C5: for the LWMA, the RMA and the selector with any tag, calling `reset`
after feeding any sequence and then replaying a sequence produces exactly
the outputs of a freshly constructed instance — reset returns the state to
its construction-time values. -/
theorem reset_replay (p : ℕ) (hp : 1 ≤ p) (xs ys : List ℚ) :
    ((((LinearlyWeightedMovingAverage.init p).run xs).1.reset).outputs ys =
        (LinearlyWeightedMovingAverage.init p).outputs ys) ∧
      (∀ r : RelativeMovingAverage, RelativeMovingAverage.new p = .ok r →
        ((r.run xs).1.reset).outputs ys = r.outputs ys) ∧
      (∀ t m, MovingAverage.new t p = .ok m →
        ((m.run xs).1.reset).outputs ys = m.outputs ys) := by
  obtain ⟨q, rfl⟩ : ∃ q, p = q + 1 := ⟨p - 1, by omega⟩
  refine ⟨?_, ?_, ?_⟩
  · rw [LinearlyWeightedMovingAverage.run_init_reset]
  · intro r hr
    have hres : r.reset = r := by
      have h3 := Except.ok.inj hr
      rw [← h3]
      rfl
    rw [rma_run_reset, hres]
  · intro t m hm
    cases t with
    | Simple =>
      obtain ⟨z, hz, rfl⟩ : ∃ z, SimpleMovingAverage.new (q + 1) = .ok z ∧
          m = .Simple z := ⟨_, rfl, (Except.ok.inj hm).symm⟩
      obtain rfl : SimpleMovingAverage.init (q + 1) = z := Except.ok.inj hz
      rw [ma_run_Simple]
      show (MovingAverage.Simple
          ((((SimpleMovingAverage.init (q + 1)).run xs).1).reset)).outputs ys = _
      rw [sma_run_init_reset]
    | Exponential =>
      obtain ⟨e, he, rfl⟩ : ∃ e, ExponentialMovingAverage.new (q + 1) = .ok e ∧
          m = .Exponential e := ⟨_, rfl, (Except.ok.inj hm).symm⟩
      have hres : e.reset = e := by
        have h3 := Except.ok.inj he
        rw [← h3]
        rfl
      rw [ma_run_Exponential]
      show (MovingAverage.Exponential (((e.run xs).1).reset)).outputs ys =
        (MovingAverage.Exponential e).outputs ys
      rw [ema_run_reset, hres]
    | Relative =>
      obtain ⟨r, hr2, rfl⟩ : ∃ r, RelativeMovingAverage.new (q + 1) = .ok r ∧
          m = .Relative r := ⟨_, rfl, (Except.ok.inj hm).symm⟩
      have hres : r.reset = r := by
        have h3 := Except.ok.inj hr2
        rw [← h3]
        rfl
      rw [ma_run_Relative]
      show (MovingAverage.Relative (((r.run xs).1).reset)).outputs ys =
        (MovingAverage.Relative r).outputs ys
      rw [rma_run_reset, hres]
    | Linear =>
      obtain ⟨z, hz, rfl⟩ : ∃ z, LinearlyWeightedMovingAverage.new (q + 1) = .ok z ∧
          m = .Linear z := ⟨_, rfl, (Except.ok.inj hm).symm⟩
      obtain rfl : LinearlyWeightedMovingAverage.init (q + 1) = z := Except.ok.inj hz
      rw [ma_run_Linear]
      show (MovingAverage.Linear
          ((((LinearlyWeightedMovingAverage.init (q + 1)).run xs).1).reset)).outputs ys = _
      rw [LinearlyWeightedMovingAverage.run_init_reset]

/-- Witness for C5 at period 1, feeding `[2]`, replaying `[3]`: the LWMA
part of the conjunction, fully instantiated. -/
theorem reset_replay_witness :
    (((LinearlyWeightedMovingAverage.init 1).run [2]).1.reset).outputs [3] =
      (LinearlyWeightedMovingAverage.init 1).outputs [3] :=
  (reset_replay 1 (by norm_num) [2] [3]).1

/-- C6: the selector built with a tag and a period is exactly the tagged
standalone indicator with that period (construction forwards, including the
error), and `next` outputs, `period` and `reset` all forward to the active
variant. -/
theorem selector_forwarding (p : ℕ) (xs : List ℚ) :
    (MovingAverage.new .Simple p = (SimpleMovingAverage.new p).map .Simple ∧
      ∀ x : SimpleMovingAverage,
        (MovingAverage.Simple x).outputs xs = x.outputs xs ∧
        (MovingAverage.Simple x).period = x.period ∧
        (MovingAverage.Simple x).reset = .Simple x.reset) ∧
    (MovingAverage.new .Exponential p =
        (ExponentialMovingAverage.new p).map .Exponential ∧
      ∀ x : ExponentialMovingAverage,
        (MovingAverage.Exponential x).outputs xs = x.outputs xs ∧
        (MovingAverage.Exponential x).period = x.period ∧
        (MovingAverage.Exponential x).reset = .Exponential x.reset) ∧
    (MovingAverage.new .Relative p = (RelativeMovingAverage.new p).map .Relative ∧
      ∀ x : RelativeMovingAverage,
        (MovingAverage.Relative x).outputs xs = x.outputs xs ∧
        (MovingAverage.Relative x).period = x.period ∧
        (MovingAverage.Relative x).reset = .Relative x.reset) ∧
    (MovingAverage.new .Linear p =
        (LinearlyWeightedMovingAverage.new p).map .Linear ∧
      ∀ x : LinearlyWeightedMovingAverage,
        (MovingAverage.Linear x).outputs xs = x.outputs xs ∧
        (MovingAverage.Linear x).period = x.period ∧
        (MovingAverage.Linear x).reset = .Linear x.reset) := by
  refine ⟨⟨rfl, fun x => ⟨?_, rfl, rfl⟩⟩, ⟨rfl, fun x => ⟨?_, rfl, rfl⟩⟩,
    ⟨rfl, fun x => ⟨?_, rfl, rfl⟩⟩, ⟨rfl, fun x => ⟨?_, rfl, rfl⟩⟩⟩
  · rw [MovingAverage.outputs, ma_run_Simple]
    rfl
  · rw [MovingAverage.outputs, ma_run_Exponential]
    rfl
  · rw [MovingAverage.outputs, ma_run_Relative]
    rfl
  · rw [MovingAverage.outputs, ma_run_Linear]
    rfl

/-- C7: `RelativeMovingAverage::new(p)` builds an embedded EMA with
`alpha = 1/p` rather than the default derivation, `next`, `reset` and
`period` delegate verbatim to it, and the RMA's outputs on any sequence are
those of an EMA configured with `alpha = 1/p`. -/
theorem rma_delegates_to_ema (p : ℕ) (hp : 1 ≤ p) :
    RelativeMovingAverage.new p =
      (ExponentialMovingAverage.with_k p (1 / (p : ℚ))).map
        (fun e => { ema := e }) ∧
      (∀ (r : RelativeMovingAverage) (x : ℚ),
        r.next x = ({ ema := (r.ema.next x).1 }, (r.ema.next x).2)) ∧
      (∀ r : RelativeMovingAverage, r.reset = { ema := r.ema.reset }) ∧
      (∀ r : RelativeMovingAverage, r.period = r.ema.period) ∧
      (∀ (e : ExponentialMovingAverage) (xs : List ℚ),
        RelativeMovingAverage.outputs { ema := e } xs = e.outputs xs) := by
  obtain ⟨q, rfl⟩ : ∃ q, p = q + 1 := ⟨p - 1, by omega⟩
  refine ⟨rfl, fun r x => rfl, fun r => rfl, fun r => rfl, fun e xs => ?_⟩
  rw [RelativeMovingAverage.outputs, rma_run]
  rfl

/-- Witness for C7 at period 3: the constructor equation, fully
instantiated. -/
theorem rma_delegates_to_ema_witness :
    RelativeMovingAverage.new 3 =
      (ExponentialMovingAverage.with_k 3 (1 / (3 : ℚ))).map
        (fun e => { ema := e }) :=
  (rma_delegates_to_ema 3 (by norm_num)).1

/-- C10: for any input type carrying the closing-value capability, the
capability-accepting `next` overload returns the same output and the same
successor state as the scalar `next` applied to the extracted closing value,
both for the LWMA and for the selector, which forwards the overload to its
active variant. -/
theorem close_overload (α : Type) [Close α] :
    (∀ (s : LinearlyWeightedMovingAverage) (t : α),
      s.nextClose t = s.next (Close.close t)) ∧
      (∀ (m : MovingAverage) (t : α),
        m.nextClose t = m.next (Close.close t)) := by
  refine ⟨fun s t => rfl, fun m t => ?_⟩
  cases m <;> rfl

/-- Witness for C10: a concrete bar with closing value 2 fed to a period-3
LWMA and to a Linear selector. -/
theorem close_overload_witness :
    (LinearlyWeightedMovingAverage.init 3).nextClose (Bar.mk 2) =
        (LinearlyWeightedMovingAverage.init 3).next
          (Close.close (Bar.mk 2)) ∧
      (MovingAverage.Linear (LinearlyWeightedMovingAverage.init 3)).nextClose
          (Bar.mk 2) =
        (MovingAverage.Linear (LinearlyWeightedMovingAverage.init 3)).next
          (Close.close (Bar.mk 2)) :=
  ⟨(close_overload Bar).1 (LinearlyWeightedMovingAverage.init 3) (Bar.mk 2),
    (close_overload Bar).2 (MovingAverage.Linear
      (LinearlyWeightedMovingAverage.init 3)) (Bar.mk 2)⟩

end Ta
